import Mathlib

/-!
Formal model of the two core components of the arch-system repository:

* the AUR security scanner (src/scripts/aur_security_scanner.py): findings,
  the severity-threshold verdict, PKGBUILD structural checks (integrity
  verification, source-URL classification), package-name validation, the
  scan_package control flow, and safe tar extraction;
* the recursive AUR dependency resolver (src/scripts/pkger.py):
  PackageTool._resolve_aur_dependencies with its depth-first traversal,
  cycle detection and dependency-spec stripping.

Python strings are modelled as Lean String (operating on the underlying
character list); Python sets and lists of names as List String; network and
filesystem effects are abstracted into explicit inputs (a registry
association list for the AUR metadata cache, an oracle record for the
scanner's download/extract/analyze collaborators).  Quotation marks inside
message literals from the source are omitted.
-/

/-! ## Severity and findings (aur_security_scanner.py, RiskLevel / SecurityFinding) -/

/-- RiskLevel enum of aur_security_scanner.py; order LOW < MEDIUM < HIGH < CRITICAL. -/
inductive RiskLevel where
  | low
  | medium
  | high
  | critical
deriving DecidableEq, BEq

/-- SecurityFinding dataclass of aur_security_scanner.py. -/
structure SecurityFinding where
  risk_level : RiskLevel
  category : String
  description : String
  location : Option String
  recommendation : Option String
  matched_content : Option String
deriving DecidableEq

/-- AURSecurityScanner._assess_overall_security: unsafe on any CRITICAL
finding, more than 2 HIGH findings, or more than 5 MEDIUM findings. -/
def assess_overall_security (findings : List SecurityFinding) : Bool :=
  let critical_count := findings.countP (fun f => decide (f.risk_level = RiskLevel.critical))
  let high_count := findings.countP (fun f => decide (f.risk_level = RiskLevel.high))
  let medium_count := findings.countP (fun f => decide (f.risk_level = RiskLevel.medium))
  if critical_count > 0 then false
  else if high_count > 2 then false
  else if medium_count > 5 then false
  else true

/-- A finding with a given severity, for concrete instances. -/
def sample_finding (r : RiskLevel) : SecurityFinding :=
  { risk_level := r, category := ("Test"), description := ("test finding"),
    location := none, recommendation := none, matched_content := none }

theorem countP_filter_not_low (fs : List SecurityFinding) (r : RiskLevel) (hr : r ≠ RiskLevel.low) :
    (fs.filter (fun f => !decide (f.risk_level = RiskLevel.low))).countP
        (fun f => decide (f.risk_level = r))
      = fs.countP (fun f => decide (f.risk_level = r)) := by
  induction fs with
  | nil => rfl
  | cons f fs ih =>
    by_cases h : f.risk_level = RiskLevel.low
    · have hlr : ¬ (RiskLevel.low = r) := fun hc => hr hc.symm
      simp [List.filter, List.countP_cons, h, hlr, ih]
    · simp [List.filter, List.countP_cons, h, ih]

/-- C1: the verdict over any findings list follows the fixed threshold rule —
safe iff no CRITICAL finding, at most 2 HIGH findings and at most 5 MEDIUM
findings; LOW findings never change the verdict (filtering them out leaves
the verdict unchanged); 3 HIGH findings give unsafe, 2 HIGH findings give
safe even together with arbitrarily many LOW findings. -/
theorem verdict_threshold_rule :
    (∀ fs : List SecurityFinding,
      assess_overall_security fs = true ↔
        (fs.countP (fun f => decide (f.risk_level = RiskLevel.critical)) = 0 ∧
         fs.countP (fun f => decide (f.risk_level = RiskLevel.high)) ≤ 2 ∧
         fs.countP (fun f => decide (f.risk_level = RiskLevel.medium)) ≤ 5))
    ∧ (∀ fs : List SecurityFinding,
        assess_overall_security (fs.filter (fun f => !decide (f.risk_level = RiskLevel.low)))
          = assess_overall_security fs)
    ∧ assess_overall_security (List.replicate 3 (sample_finding RiskLevel.high)) = false
    ∧ assess_overall_security (List.replicate 2 (sample_finding RiskLevel.high)) = true
    ∧ assess_overall_security
        (List.replicate 2 (sample_finding RiskLevel.high)
          ++ List.replicate 9 (sample_finding RiskLevel.low)) = true := by
  refine ⟨?_, ?_, by decide, by decide, by decide⟩
  · intro fs
    simp only [assess_overall_security]
    by_cases h1 : List.countP (fun f => decide (f.risk_level = RiskLevel.critical)) fs > 0
    · rw [if_pos h1]
      refine iff_of_false (by simp) ?_
      intro hconj
      omega
    · rw [if_neg h1]
      by_cases h2 : List.countP (fun f => decide (f.risk_level = RiskLevel.high)) fs > 2
      · rw [if_pos h2]
        refine iff_of_false (by simp) ?_
        intro hconj
        omega
      · rw [if_neg h2]
        by_cases h3 : List.countP (fun f => decide (f.risk_level = RiskLevel.medium)) fs > 5
        · rw [if_pos h3]
          refine iff_of_false (by simp) ?_
          intro hconj
          omega
        · rw [if_neg h3]
          exact iff_of_true rfl ⟨by omega, by omega, by omega⟩
  · intro fs
    unfold assess_overall_security
    rw [countP_filter_not_low fs RiskLevel.critical (by decide),
        countP_filter_not_low fs RiskLevel.high (by decide),
        countP_filter_not_low fs RiskLevel.medium (by decide)]

/-! ## PKGBUILD integrity verification (PKGBUILDAnalyzer._check_integrity_verification)

The PKGBUILD text is modelled as its list of lines; the Python regex
search for `^\s*field\s*=` with re.MULTILINE is the existence of a line
consisting of optional whitespace, the field name, optional whitespace
and =, then anything. -/

/-- Whitespace characters of the regex class \s other than the newline
(which cannot occur inside one line). -/
def is_py_space (c : Char) : Bool :=
  c = ' ' || c = '\t' || c = '\r' || c = '\x0b' || c = '\x0c'

/-- One line matches the anchored assignment regex for a field. -/
def line_assigns (field : String) (line : String) : Bool :=
  let rest := line.data.dropWhile is_py_space
  field.data.isPrefixOf rest &&
    ((rest.drop field.data.length).dropWhile is_py_space).head? = some '='

/-- re.search of the MULTILINE pattern for a field over the whole text. -/
def has_field_assignment (lines : List String) (field : String) : Bool :=
  lines.any (fun line => line_assigns field line)

/-- The checksum_fields list of _check_integrity_verification. -/
def checksum_fields : List String :=
  [("md5sums"), ("sha1sums"), ("sha256sums"), ("sha512sums")]

/-- found_checksums of _check_integrity_verification. -/
def found_checksums (lines : List String) : List String :=
  checksum_fields.filter (fun field => has_field_assignment lines field)

/-- The HIGH finding emitted when no checksum field is present. -/
def no_integrity_finding : SecurityFinding :=
  { risk_level := RiskLevel.high, category := ("No Integrity Verification"),
    description := ("Package does not verify download integrity with checksums"),
    location := none,
    recommendation := some ("Add SHA256 or SHA512 checksums to PKGBUILD"),
    matched_content := none }

/-- The MEDIUM finding emitted when weak hash fields are among the found ones. -/
def weak_hash_finding (weak : List String) : SecurityFinding :=
  { risk_level := RiskLevel.medium, category := ("Weak Hash Algorithm"),
    description := ("Using weak hash algorithms: " ++ String.intercalate (", ") weak),
    location := none,
    recommendation := some ("Use SHA256 or SHA512 for better security"),
    matched_content := none }

/-- PKGBUILDAnalyzer._check_integrity_verification: the findings this check
appends for a given PKGBUILD text. -/
def check_integrity_verification (lines : List String) : List SecurityFinding :=
  let found := found_checksums lines
  if found.isEmpty then [no_integrity_finding]
  else
    let weak := found.filter (fun h => h = ("md5sums") || h = ("sha1sums"))
    if weak.isEmpty then [] else [weak_hash_finding weak]

/-- C7: a PKGBUILD with no checksum field of md5sums, sha1sums, sha256sums,
sha512sums yields exactly the HIGH no-integrity-verification finding; when a
checksum field is present that HIGH finding is absent; when only weak fields
(md5sums / sha1sums) are present, a MEDIUM weak-hash finding is yielded
instead. -/
theorem integrity_verification_findings (lines : List String) :
    (found_checksums lines = [] →
      check_integrity_verification lines = [no_integrity_finding])
    ∧ (found_checksums lines ≠ [] →
      no_integrity_finding ∉ check_integrity_verification lines)
    ∧ (found_checksums lines ≠ [] →
      (∀ f ∈ found_checksums lines, f = ("md5sums") ∨ f = ("sha1sums")) →
      ∃ f ∈ check_integrity_verification lines,
        f.risk_level = RiskLevel.medium ∧ f.category = ("Weak Hash Algorithm")) := by
  refine ⟨?_, ?_, ?_⟩
  · intro h
    simp [check_integrity_verification, h]
  · intro h
    simp only [check_integrity_verification]
    rw [if_neg (by simpa using h)]
    split_ifs with hw
    · simp
    · intro hmem
      have heq := List.mem_singleton.mp hmem
      have : no_integrity_finding.risk_level = RiskLevel.medium := by
        rw [heq]
        rfl
      simp [no_integrity_finding] at this
  · intro h hall
    simp only [check_integrity_verification]
    rw [if_neg (by simpa using h)]
    have hne : ¬ ((found_checksums lines).filter
        (fun f => f = ("md5sums") || f = ("sha1sums"))).isEmpty = true := by
      rw [List.isEmpty_iff, List.filter_eq_nil_iff]
      intro hnil
      rcases List.exists_mem_of_ne_nil _ h with ⟨f, hf⟩
      rcases hall f hf with h1 | h1 <;> exact absurd (by simp [h1]) (hnil f hf)
    rw [if_neg hne]
    exact ⟨weak_hash_finding _, List.mem_singleton.mpr rfl, rfl, rfl⟩

/-- Witness for C7 at concrete inputs: a PKGBUILD carrying only an md5sums
field yields the MEDIUM weak-hash finding and not the HIGH one, and a
PKGBUILD with no checksum field at all yields exactly the HIGH finding. -/
theorem integrity_verification_findings_witness :
    (found_checksums [("pkgname=foo"), ("md5sums=(abc)")] ≠ [] ∧
      (∃ f ∈ check_integrity_verification [("pkgname=foo"), ("md5sums=(abc)")],
        f.risk_level = RiskLevel.medium ∧ f.category = ("Weak Hash Algorithm")) ∧
      no_integrity_finding ∉ check_integrity_verification [("pkgname=foo"), ("md5sums=(abc)")]) ∧
    check_integrity_verification [("pkgname=foo")] = [no_integrity_finding] := by
  refine ⟨⟨by decide, ?_, ?_⟩, ?_⟩
  · exact (integrity_verification_findings [("pkgname=foo"), ("md5sums=(abc)")]).2.2
      (by decide) (by decide)
  · exact (integrity_verification_findings [("pkgname=foo"), ("md5sums=(abc)")]).2.1
      (by decide)
  · exact (integrity_verification_findings [("pkgname=foo")]).1 (by decide)

/-! ## Source-URL classification (PKGBUILDAnalyzer._analyze_url)

urllib.parse.urlparse is modelled for the URLs this analyzer receives
(they all contain a scheme followed by ://): the scheme is the lowercased
text before the first colon, the netloc the text between :// and the next
/, ? or #. -/

/-- Scheme of a URL as urlparse returns it (lowercased). -/
def scheme_of (url : String) : String :=
  String.mk ((url.data.takeWhile (fun c => c ≠ ':')).map Char.toLower)

/-- netloc of a URL: the part after :// up to the next /, ? or #. -/
def netloc_of (url : String) : String :=
  let after := (url.data.dropWhile (fun c => c ≠ ':')).drop 3
  String.mk (after.takeWhile (fun c => c ≠ '/' && c ≠ '?' && c ≠ '#'))

/-- domain computed by _analyze_url: lowercased netloc with the port removed. -/
def domain_of (url : String) : String :=
  String.mk (((netloc_of url).data.map Char.toLower).takeWhile (fun c => c ≠ ':'))

/-- TRUSTED_DOMAINS of PKGBUILDAnalyzer. -/
def trusted_domains : List String :=
  [("github.com"), ("gitlab.com"), ("bitbucket.org"), ("sourceforge.net"),
   ("archive.org"), ("gnu.org"), ("kernel.org"), ("python.org"), ("mozilla.org"),
   ("freedesktop.org"), ("gnome.org"), ("kde.org"), ("apache.org"), ("debian.org"),
   ("ubuntu.com"), ("fedoraproject.org"), ("archlinux.org"), ("gentoo.org")]

/-- suspicious_tlds of _analyze_url. -/
def suspicious_tlds : List String :=
  [(".tk"), (".ml"), (".ga"), (".cf"), (".cc")]

/-- domain.endswith(tld). -/
def ends_with_tld (domain tld : String) : Bool :=
  tld.data.isSuffixOf domain.data

/-- The MEDIUM insecure-protocol finding of _analyze_url. -/
def insecure_protocol_finding (domain url : String) : SecurityFinding :=
  { risk_level := RiskLevel.medium, category := ("Insecure Protocol"),
    description := ("Unencrypted HTTP download: " ++ domain),
    location := none,
    recommendation := some ("Use HTTPS sources when available"),
    matched_content := some url }

/-- The unknown-source-domain finding of _analyze_url (HIGH when the domain
has a suspicious TLD, LOW otherwise). -/
def unknown_domain_finding (suspicious : Bool) (domain url : String) : SecurityFinding :=
  { risk_level := if suspicious then RiskLevel.high else RiskLevel.low,
    category := ("Unknown Source Domain"),
    description :=
      (if suspicious then ("Download from suspicious domain: ")
       else ("Download from non-standard domain: ")) ++ domain,
    location := none,
    recommendation := some ("Verify domain reputation and authenticity"),
    matched_content := some url }

/-- PKGBUILDAnalyzer._analyze_url: the findings appended for one URL. -/
def analyze_url (url : String) : List SecurityFinding :=
  let domain := domain_of url
  let http_findings :=
    if scheme_of url = ("http") then [insecure_protocol_finding domain url] else []
  let domain_findings :=
    if trusted_domains.contains domain then []
    else
      let suspicious := suspicious_tlds.any (fun tld => ends_with_tld domain tld)
      [unknown_domain_finding suspicious domain url]
  http_findings ++ domain_findings

/-- C8: a plain-HTTP source URL yields the MEDIUM insecure-protocol finding;
a URL whose domain is not in the trusted-domain allowlist yields the
unknown-source-domain finding, HIGH when the domain ends in a suspicious
TLD and LOW otherwise; and http://example.org/src.tar.gz yields exactly the
MEDIUM insecure-protocol finding followed by the LOW unknown-domain finding. -/
theorem analyze_url_classification (url : String) :
    (scheme_of url = ("http") →
      insecure_protocol_finding (domain_of url) url ∈ analyze_url url)
    ∧ (trusted_domains.contains (domain_of url) = false →
      unknown_domain_finding
        (suspicious_tlds.any (fun tld => ends_with_tld (domain_of url) tld))
        (domain_of url) url ∈ analyze_url url)
    ∧ analyze_url ("http://example.org/src.tar.gz") =
      [insecure_protocol_finding ("example.org") ("http://example.org/src.tar.gz"),
       unknown_domain_finding false ("example.org") ("http://example.org/src.tar.gz")] := by
  refine ⟨?_, ?_, by decide⟩
  · intro h
    simp only [analyze_url]
    rw [if_pos h]
    exact List.mem_append_left _ (List.mem_singleton.mpr rfl)
  · intro h
    simp only [analyze_url]
    rw [if_neg (fun hc => Bool.false_ne_true (h.symm.trans hc))]
    exact List.mem_append_right _ (List.mem_singleton.mpr rfl)

/-- Witness for C8 at the concrete URL http://example.org/src.tar.gz: it is
plain HTTP with untrusted domain example.org, and both findings are among
the analyzer output. -/
theorem analyze_url_classification_witness :
    scheme_of ("http://example.org/src.tar.gz") = ("http") ∧
    trusted_domains.contains (domain_of ("http://example.org/src.tar.gz")) = false ∧
    insecure_protocol_finding (domain_of ("http://example.org/src.tar.gz"))
      ("http://example.org/src.tar.gz") ∈ analyze_url ("http://example.org/src.tar.gz") ∧
    unknown_domain_finding
      (suspicious_tlds.any (fun tld => ends_with_tld (domain_of ("http://example.org/src.tar.gz")) tld))
      (domain_of ("http://example.org/src.tar.gz")) ("http://example.org/src.tar.gz")
      ∈ analyze_url ("http://example.org/src.tar.gz") := by
  refine ⟨by decide, by decide, ?_, ?_⟩
  · exact (analyze_url_classification ("http://example.org/src.tar.gz")).1 (by decide)
  · exact (analyze_url_classification ("http://example.org/src.tar.gz")).2.1 (by decide)

/-! ## Package-name validation and scan_package control flow
(AURSecurityScanner._validate_package_name / scan_package)

The network and filesystem collaborators of scan_package (snapshot
download+extraction, PKGBUILD analysis, AUR metadata query, auxiliary-file
scan) are abstracted into an oracle record: scan_package only sequences
them, and the claims here concern that sequencing. -/

/-- The character class of the validation regex [a-zA-Z0-9._+-]. -/
def allowed_name_char (c : Char) : Bool :=
  ('a' ≤ c && c ≤ 'z') || ('A' ≤ c && c ≤ 'Z') || ('0' ≤ c && c ≤ '9') ||
    c = '.' || c = '_' || c = '+' || c = '-'

/-- AURSecurityScanner._validate_package_name: re.match of the anchored
pattern [a-zA-Z0-9._+-]+ (whose trailing anchor also matches just before
one final newline, as the Python $ does), plus the 255-character cap. -/
def validate_package_name (name : String) : Bool :=
  let cs := name.data
  let core := if cs.getLast? = some '\n' then cs.dropLast else cs
  (!core.isEmpty && core.all allowed_name_char) && cs.length ≤ 255

/-- The CRITICAL finding returned for an invalid package name. -/
def invalid_name_finding (name : String) : SecurityFinding :=
  { risk_level := RiskLevel.critical, category := ("Invalid Package Name"),
    description := ("Package name " ++ name ++ " contains invalid characters"),
    location := none,
    recommendation := some ("Use only alphanumeric characters, hyphens, and underscores"),
    matched_content := none }

/-- The CRITICAL finding appended when the extracted package has no PKGBUILD. -/
def missing_pkgbuild_finding : SecurityFinding :=
  { risk_level := RiskLevel.critical, category := ("Missing PKGBUILD"),
    description := ("PKGBUILD file not found in package"),
    location := none,
    recommendation := some ("Package structure is invalid - do not install"),
    matched_content := none }

/-- The CRITICAL finding appended when an AURSecurityError aborts the scan. -/
def scanner_error_finding (msg : String) : SecurityFinding :=
  { risk_level := RiskLevel.critical, category := ("Security Scanner Error"),
    description := msg,
    location := none,
    recommendation := some ("Cannot safely analyze package"),
    matched_content := none }

/-- The effectful collaborators of one scan_package run: the download and
extraction step (an AURSecurityError message on failure), whether the
extracted directory contains a PKGBUILD, and the findings the three
analysis steps would contribute. -/
structure ScanOracle where
  download : Except String Unit
  has_pkgbuild : Bool
  pkgbuild_findings : List SecurityFinding
  metadata_findings : List SecurityFinding
  additional_file_findings : List SecurityFinding

/-- AURSecurityScanner.scan_package: validate the name, download and
extract, require PKGBUILD, collect the analysis findings, assess. -/
def scan_package (oracle : ScanOracle) (name : String) : Bool × List SecurityFinding :=
  if !validate_package_name name then (false, [invalid_name_finding name])
  else
    match oracle.download with
    | Except.error msg => (false, [scanner_error_finding msg])
    | Except.ok _ =>
      if !oracle.has_pkgbuild then (false, [missing_pkgbuild_finding])
      else
        let findings := oracle.pkgbuild_findings ++ oracle.metadata_findings
          ++ oracle.additional_file_findings
        (assess_overall_security findings, findings)

set_option maxRecDepth 10000 in
/-- C9 counterexample: the claim fails as stated — a 256-character name
composed only of allowed characters is nevertheless rejected by
_validate_package_name (the code also enforces a 255-character cap), and a
name made of allowed characters plus one trailing newline, which contains a
character outside the allowed charset, is accepted (the Python $ anchor
also matches before a final newline). -/
theorem validate_package_name_charset_refuted :
    (validate_package_name (String.mk (List.replicate 256 'a')) = false ∧
      (List.replicate 256 'a').all allowed_name_char = true ∧
      (List.replicate 256 'a').isEmpty = false) ∧
    (validate_package_name (String.mk [('a' : Char), 'b', 'c', '\n']) = true ∧
      ([('a' : Char), 'b', 'c', '\n']).all allowed_name_char = false) := by
  constructor
  · refine ⟨?_, by decide, by decide⟩
    have hlen : (String.mk (List.replicate 256 'a')).data.length = 256 := by
      simp
    simp only [validate_package_name]
    rw [Bool.and_eq_false_iff]
    right
    rw [hlen]
    decide
  · exact ⟨by decide, by decide⟩

/-- C9 as amended: any name failing validation is rejected by scan_package
with an unsafe verdict and the single CRITICAL invalid-name finding, for
every oracle (nothing is fetched or analyzed); and every non-empty name of
at most 255 characters composed only of allowed charset characters passes
validation. -/
theorem scan_rejects_invalid_names (oracle : ScanOracle) (name : String) :
    (validate_package_name name = false →
      scan_package oracle name = (false, [invalid_name_finding name]))
    ∧ (name.data ≠ [] → name.data.all allowed_name_char = true →
        name.data.length ≤ 255 → validate_package_name name = true) := by
  constructor
  · intro h
    simp [scan_package, h]
  · intro hne hall hlen
    have hlast : name.data.getLast? ≠ some '\n' := by
      intro hc
      rw [List.getLast?_eq_getLast_of_ne_nil hne] at hc
      have heq : name.data.getLast hne = '\n' := Option.some.inj hc
      have hmem : name.data.getLast hne ∈ name.data := List.getLast_mem hne
      have hchar := List.all_eq_true.mp hall _ hmem
      rw [heq] at hchar
      exact absurd hchar (by decide)
    simp only [validate_package_name]
    rw [if_neg hlast]
    have hempty : name.data.isEmpty = false := by
      cases hd : name.data with
      | nil => exact absurd hd hne
      | cons a l => rfl
    simp [hempty, hall]
    exact hlen

/-- Witness for C9: the invalid name bad! is rejected by scan_package with
the single CRITICAL finding under a concrete oracle, and the valid name
firefox-dev passes validation. -/
theorem scan_rejects_invalid_names_witness :
    (validate_package_name ("bad!") = false ∧
      scan_package (ScanOracle.mk (Except.ok ()) true [] [] []) ("bad!")
        = (false, [invalid_name_finding ("bad!")])) ∧
    validate_package_name ("firefox-dev") = true := by
  refine ⟨⟨by decide, ?_⟩, ?_⟩
  · exact (scan_rejects_invalid_names (ScanOracle.mk (Except.ok ()) true [] [] [])
      ("bad!")).1 (by decide)
  · exact (scan_rejects_invalid_names (ScanOracle.mk (Except.ok ()) true [] [] [])
      ("firefox-dev")).2 (by decide) (by decide) (by decide)

/-- C10: when the name validates, the download and extraction succeed, and
the extracted directory has no PKGBUILD, scan_package returns the unsafe
verdict with exactly the single CRITICAL missing-PKGBUILD finding — in
particular none of the manifest, metadata or auxiliary-file findings of the
oracle appear, those steps never run. -/
theorem scan_missing_pkgbuild_unsafe (oracle : ScanOracle) (name : String) :
    validate_package_name name = true →
    oracle.download = Except.ok () →
    oracle.has_pkgbuild = false →
    scan_package oracle name = (false, [missing_pkgbuild_finding]) := by
  intro hv hd hp
  simp [scan_package, hv, hd, hp]

/-- Witness for C10: a concrete oracle whose analysis steps would produce a
nonempty findings list still yields exactly the missing-PKGBUILD result. -/
theorem scan_missing_pkgbuild_unsafe_witness :
    scan_package (ScanOracle.mk (Except.ok ()) false [sample_finding RiskLevel.low] [] [])
        ("yay") = (false, [missing_pkgbuild_finding]) :=
  scan_missing_pkgbuild_unsafe
    (ScanOracle.mk (Except.ok ()) false [sample_finding RiskLevel.low] [] [])
    ("yay") (by decide) rfl rfl

/-! ## Safe tar extraction (AURSecurityScanner._safe_extract_tar)

Absolute filesystem paths are modelled as lists of components from the root
(the extraction root is assumed canonical, as tempfile.mkdtemp returns it).
A tar member name is its list of raw components (possibly .., . or empty).
Path.resolve and os.path.realpath are the usual lexical normalization;
str() renders the components with / separators.

The method defends in two layers: its own member loop compares rendered
strings with str.startswith before anything is extracted, and then
tar.extractall(path, filter=data) validates each member again as it writes
it — the data filter checks
os.path.commonpath([realpath(join(dest, name)), dest]) == dest, i.e.
componentwise containment, and raises OutsideDestinationError (a TarError,
wrapped at line 553 into the invalid-archive AURSecurityError) on the first
escaping member; members earlier in the archive are on disk by then.  The
model records the members extractall wrote so containment is statable (the
caller deletes the whole scratch directory afterwards either way). -/

/-- One member of the tar archive: the components of member.name and
member.size in bytes. -/
structure TarMember where
  path : List String
  size : Nat
deriving DecidableEq

/-- Lexical normalization done by Path.resolve / os.path.realpath: .. pops
a component (a no-op at the root), . and empty components vanish. -/
def normalize_components (comps : List String) : List String :=
  comps.foldl
    (fun acc c =>
      if c = ("..") then acc.dropLast
      else if c = (".") || c = ("") then acc
      else acc ++ [c])
    []

/-- The rendering of each component in turn, each preceded by a slash. -/
def render_path_rest : List String → String
  | [] => ("")
  | c :: cs => ("/") ++ c ++ render_path_rest cs

/-- str() of an absolute path with the given components. -/
def render_path (comps : List String) : String :=
  match comps with
  | [] => ("/")
  | _ :: _ => render_path_rest comps

/-- (extract_to / member.name).resolve() of _safe_extract_tar. -/
def member_destination (extract_to : List String) (m : TarMember) : List String :=
  normalize_components (extract_to ++ m.path)

/-- Python str.startswith, on the underlying characters. -/
def str_starts_with (s pre : String) : Bool :=
  pre.data.isPrefixOf s.data

/-- The pre-extraction containment check of _safe_extract_tar:
str(member_path).startswith(str(extract_to.resolve())). -/
def member_check_passes (extract_to : List String) (m : TarMember) : Bool :=
  str_starts_with (render_path (member_destination extract_to m))
    (render_path (normalize_components extract_to))

/-- The containment check of the extractall data filter:
os.path.commonpath([realpath(join(dest, name)), dest]) == dest, i.e. the
root components are a componentwise prefix of the resolved destination. -/
def member_inside (extract_to : List String) (m : TarMember) : Bool :=
  (normalize_components extract_to).isPrefixOf (member_destination extract_to m)

/-- member.name as the tar archive stores it (relative, / separated). -/
def member_name (m : TarMember) : String :=
  String.intercalate ("/") m.path

/-- The 100 MiB threshold of the per-member size check. -/
def oversize_threshold : Nat := 100 * 1024 * 1024

/-- The logger.warning message for an oversized member. -/
def large_file_warning (m : TarMember) : String :=
  "Large file in archive: " ++ member_name m ++ " (" ++ toString m.size ++ " bytes)"

/-- The member loop of _safe_extract_tar: raise AURSecurityError on the
first member whose startswith check fails, collect the size warnings of
the others. -/
def check_members (extract_to : List String) : List TarMember → Except String (List String)
  | [] => Except.ok []
  | m :: ms =>
    if !member_check_passes extract_to m then
      Except.error ("Attempted path traversal: " ++ member_name m)
    else
      let warns := if m.size > oversize_threshold then [large_file_warning m] else []
      match check_members extract_to ms with
      | Except.error e => Except.error e
      | Except.ok ws => Except.ok (warns ++ ws)

/-- The AURSecurityError wrapping the data filter's OutsideDestinationError
(Invalid tar archive: {name} would be extracted to {target}, which is
outside the destination). -/
def outside_destination_error (extract_to : List String) (m : TarMember) : String :=
  "Invalid tar archive: " ++ member_name m ++ " would be extracted to "
    ++ render_path (member_destination extract_to m)
    ++ ", which is outside the destination"

/-- tar.extractall(path, filter=data): members are written one by one in
archive order, the data filter validating each member just before writing
it; the first escaping member raises, the members before it are already on
disk.  Returns the written members and the offending member, if any. -/
def extractall_data (extract_to : List String) :
    List TarMember → List TarMember × Option TarMember
  | [] => ([], none)
  | m :: ms =>
    if member_inside extract_to m then
      let rest := extractall_data extract_to ms
      (m :: rest.1, rest.2)
    else ([], some m)

/-- The outcome of one _safe_extract_tar call: the AURSecurityError raised
or the normal return, together with the members extractall wrote before
that outcome and the log warnings.  The scanner's findings list is
threaded through unchanged because the method never touches it. -/
inductive ExtractResult where
  | ok (findings : List SecurityFinding) (warnings : List String) (written : List TarMember)
  | error (msg : String) (written : List TarMember)
deriving DecidableEq

/-- The members a _safe_extract_tar call wrote to disk. -/
def extract_written : ExtractResult → List TarMember
  | ExtractResult.ok _ _ w => w
  | ExtractResult.error _ w => w

/-- AURSecurityScanner._safe_extract_tar: the startswith member checks run
before any extraction, raising the path-traversal AURSecurityError; then
tar.extractall(path, filter=data) writes the members, a TarError from its
filter wrapped into the invalid-archive AURSecurityError. -/
def safe_extract_tar (findings : List SecurityFinding) (extract_to : List String)
    (members : List TarMember) : ExtractResult :=
  match check_members extract_to members with
  | Except.error e => ExtractResult.error e []
  | Except.ok warnings =>
    match extractall_data extract_to members with
    | (written, none) => ExtractResult.ok findings warnings written
    | (written, some m) =>
      ExtractResult.error (outside_destination_error extract_to m) written

theorem isPrefixOf_append_self {α : Type} [BEq α] [LawfulBEq α] (l t : List α) :
    List.isPrefixOf l (l ++ t) = true := by
  induction l with
  | nil => simp [List.isPrefixOf]
  | cons a as ih => simp [List.isPrefixOf, ih]

theorem exists_append_of_isPrefixOf {α : Type} [BEq α] [LawfulBEq α] :
    ∀ {l1 l2 : List α}, List.isPrefixOf l1 l2 = true → ∃ t, l2 = l1 ++ t := by
  intro l1
  induction l1 with
  | nil =>
    intro l2 _
    exact ⟨l2, rfl⟩
  | cons a as ih =>
    intro l2 h
    cases l2 with
    | nil => simp [List.isPrefixOf] at h
    | cons b bs =>
      simp only [List.isPrefixOf, Bool.and_eq_true, beq_iff_eq] at h
      rcases h with ⟨hab, hpre⟩
      rcases ih hpre with ⟨t, ht⟩
      refine ⟨t, ?_⟩
      rw [ht, hab]
      rfl

theorem render_path_rest_append (R t : List String) :
    render_path_rest (R ++ t) = render_path_rest R ++ render_path_rest t := by
  induction R with
  | nil =>
    show render_path_rest t = ("") ++ render_path_rest t
    rw [String.empty_append]
  | cons c cs ih =>
    show ("/") ++ c ++ render_path_rest (cs ++ t)
      = ("/") ++ c ++ render_path_rest cs ++ render_path_rest t
    rw [ih]
    simp [String.append_assoc]

theorem render_path_append (R t : List String) :
    ∃ s : String, render_path (R ++ t) = render_path R ++ s := by
  cases R with
  | nil =>
    cases t with
    | nil => exact ⟨(""), (String.append_empty _).symm⟩
    | cons c cs =>
      refine ⟨c ++ render_path_rest cs, ?_⟩
      show ("/") ++ c ++ render_path_rest cs = ("/") ++ (c ++ render_path_rest cs)
      rw [String.append_assoc]
  | cons r rs =>
    exact ⟨render_path_rest t, render_path_rest_append (r :: rs) t⟩

/-- Componentwise containment under the root implies passage of the
string-prefix pre-check (the converse fails, which is what the C2
counterexample exhibits). -/
theorem member_check_of_inside (extract_to : List String) (m : TarMember)
    (h : member_inside extract_to m = true) :
    member_check_passes extract_to m = true := by
  simp only [member_inside] at h
  rcases exists_append_of_isPrefixOf h with ⟨t, ht⟩
  simp only [member_check_passes, str_starts_with]
  rw [ht]
  rcases render_path_append (normalize_components extract_to) t with ⟨s, hs⟩
  rw [hs, String.data_append]
  exact isPrefixOf_append_self _ _

theorem check_members_ok (extract_to : List String) :
    ∀ ms : List TarMember, (∀ m2 ∈ ms, member_check_passes extract_to m2 = true) →
      ∃ ws, check_members extract_to ms = Except.ok ws ∧
        ∀ m ∈ ms, m.size > oversize_threshold → large_file_warning m ∈ ws := by
  intro ms
  induction ms with
  | nil =>
    intro _
    refine ⟨[], rfl, ?_⟩
    intro m hm
    cases hm
  | cons m2 ms ih =>
    intro hpass2
    rcases ih (fun x hx => hpass2 x (List.mem_cons_of_mem _ hx)) with ⟨ws, hws, hmem⟩
    have hp2 : member_check_passes extract_to m2 = true :=
      hpass2 m2 (List.mem_cons_self _ _)
    refine ⟨(if m2.size > oversize_threshold then [large_file_warning m2] else []) ++ ws, ?_, ?_⟩
    · simp only [check_members, hp2, Bool.not_true]
      rw [if_neg (by simp)]
      rw [hws]
    · intro m hin hsize
      rcases List.mem_cons.mp hin with hed | htl
      · subst hed
        rw [if_pos hsize]
        exact List.mem_append_left _ (List.mem_singleton.mpr rfl)
      · exact List.mem_append_right _ (hmem m htl hsize)

theorem check_members_err (extract_to : List String) :
    ∀ ms : List TarMember, (∃ m ∈ ms, member_check_passes extract_to m = false) →
      ∃ e, check_members extract_to ms = Except.error e := by
  intro ms
  induction ms with
  | nil =>
    intro h
    rcases h with ⟨m, hm, _⟩
    cases hm
  | cons m2 ms ih =>
    intro h
    by_cases hp2 : member_check_passes extract_to m2 = true
    · rcases h with ⟨m, hm, hfail⟩
      have hmem : m ∈ ms := by
        rcases List.mem_cons.mp hm with he | ht
        · subst he
          rw [hp2] at hfail
          cases hfail
        · exact ht
      rcases ih ⟨m, hmem, hfail⟩ with ⟨e, he⟩
      refine ⟨e, ?_⟩
      simp only [check_members, hp2, Bool.not_true]
      rw [if_neg (by simp)]
      rw [he]
    · refine ⟨"Attempted path traversal: " ++ member_name m2, ?_⟩
      simp only [check_members]
      rw [if_pos (by simp [hp2])]

theorem extractall_data_all_inside (extract_to : List String) :
    ∀ members : List TarMember, (∀ m ∈ members, member_inside extract_to m = true) →
      extractall_data extract_to members = (members, none) := by
  intro members
  induction members with
  | nil =>
    intro _
    rfl
  | cons m ms ih =>
    intro h
    simp only [extractall_data]
    rw [if_pos (h m (List.mem_cons_self _ _)), ih (fun x hx => h x (List.mem_cons_of_mem _ hx))]

theorem extractall_data_spec (extract_to : List String) :
    ∀ members : List TarMember,
      (∀ w ∈ (extractall_data extract_to members).1,
        member_inside extract_to w = true ∧ w ∈ members) ∧
      ((extractall_data extract_to members).2 = none →
        ∀ m ∈ members, member_inside extract_to m = true) := by
  intro members
  induction members with
  | nil =>
    refine ⟨?_, ?_⟩
    · intro w hw
      cases hw
    · intro _ m hm
      cases hm
  | cons m ms ih =>
    by_cases hin : member_inside extract_to m = true
    · have hred : extractall_data extract_to (m :: ms)
          = (m :: (extractall_data extract_to ms).1, (extractall_data extract_to ms).2) := by
        simp only [extractall_data]
        rw [if_pos hin]
      refine ⟨?_, ?_⟩
      · intro w hw
        rw [hred] at hw
        rcases List.mem_cons.mp hw with he | ht
        · subst he
          exact ⟨hin, List.mem_cons_self _ _⟩
        · rcases ih.1 w ht with ⟨h1, h2⟩
          exact ⟨h1, List.mem_cons_of_mem _ h2⟩
      · intro hnone m2 hm2
        rw [hred] at hnone
        rcases List.mem_cons.mp hm2 with he | ht
        · subst he
          exact hin
        · exact ih.2 hnone m2 ht
    · have hred : extractall_data extract_to (m :: ms) = ([], some m) := by
        simp only [extractall_data]
        rw [if_neg hin]
      refine ⟨?_, ?_⟩
      · intro w hw
        rw [hred] at hw
        cases hw
      · intro hnone
        rw [hred] at hnone
        cases hnone

/-- C2 counterexample: the claim fails as stated — with extraction root
/tmp/x, the member ../xevil/pwned resolves to /tmp/xevil/pwned, outside the
root, yet it passes the pre-extraction startswith check (a string-prefix
test that the sibling directory satisfies); for the archive
[ok.txt, ../xevil/pwned] extraction does abort, but through the extractall
data filter, with the invalid-archive error rather than the path-traversal
error, and only after ok.txt — a file of the archive — has been extracted,
so neither the claimed error nor the claimed nothing-extracted hold.  The
member ../../etc/passwd is caught by the pre-check with the path-traversal
error before anything is written, as claimed. -/
theorem path_traversal_claim_refuted :
    member_check_passes [("tmp"), ("x")] (TarMember.mk [(".."), ("xevil"), ("pwned")] 5) = true
    ∧ member_inside [("tmp"), ("x")] (TarMember.mk [(".."), ("xevil"), ("pwned")] 5) = false
    ∧ safe_extract_tar [] [("tmp"), ("x")]
        [TarMember.mk [("ok.txt")] 5, TarMember.mk [(".."), ("xevil"), ("pwned")] 5]
      = ExtractResult.error
          (outside_destination_error [("tmp"), ("x")]
            (TarMember.mk [(".."), ("xevil"), ("pwned")] 5))
          [TarMember.mk [("ok.txt")] 5]
    ∧ extract_written (safe_extract_tar [] [("tmp"), ("x")]
        [TarMember.mk [("ok.txt")] 5, TarMember.mk [(".."), ("xevil"), ("pwned")] 5]) ≠ []
    ∧ outside_destination_error [("tmp"), ("x")] (TarMember.mk [(".."), ("xevil"), ("pwned")] 5)
      ≠ "Attempted path traversal: ../xevil/pwned"
    ∧ safe_extract_tar [] [("tmp"), ("x")] [TarMember.mk [(".."), (".."), ("etc"), ("passwd")] 5]
      = ExtractResult.error ("Attempted path traversal: ../../etc/passwd") [] := by
  exact ⟨by decide, by decide, by decide, by decide, by decide, by decide⟩

/-- C2 as amended: every archive member is verified against the extraction
root before that member is written, in two layers.  Every member actually
written resolves inside the root and comes from the archive; a member
failing the string-prefix pre-check aborts extraction with the
path-traversal error before anything is written; an archive holding any
member whose resolved destination escapes the root never extracts fully —
extraction aborts with an error (the pre-check error, or the data filter's
invalid-archive error for string-prefix bypasses such as ../xevil under
/tmp/x, in which case the members preceding the offender are already on
disk inside the root); and an archive whose members all resolve inside the
root extracts completely. -/
theorem extraction_path_containment (findings : List SecurityFinding)
    (extract_to : List String) (members : List TarMember) :
    (∀ w ∈ extract_written (safe_extract_tar findings extract_to members),
      member_inside extract_to w = true ∧ w ∈ members)
    ∧ ((∃ m ∈ members, member_check_passes extract_to m = false) →
      ∃ msg, safe_extract_tar findings extract_to members = ExtractResult.error msg [])
    ∧ ((∃ m ∈ members, member_inside extract_to m = false) →
      ∃ msg written, safe_extract_tar findings extract_to members
        = ExtractResult.error msg written)
    ∧ ((∀ m ∈ members, member_inside extract_to m = true) →
      ∃ warnings, safe_extract_tar findings extract_to members
        = ExtractResult.ok findings warnings members) := by
  refine ⟨?_, ?_, ?_, ?_⟩
  · intro w hw
    simp only [safe_extract_tar] at hw
    cases hchk : check_members extract_to members with
    | error e =>
      rw [hchk] at hw
      cases hw
    | ok ws =>
      rw [hchk] at hw
      dsimp only at hw
      cases hext : extractall_data extract_to members with
      | mk written err =>
        rw [hext] at hw
        cases err with
        | none =>
          have := (extractall_data_spec extract_to members).1 w
          rw [hext] at this
          exact this hw
        | some m2 =>
          have := (extractall_data_spec extract_to members).1 w
          rw [hext] at this
          exact this hw
  · intro h
    rcases check_members_err extract_to members h with ⟨e, he⟩
    refine ⟨e, ?_⟩
    simp only [safe_extract_tar]
    rw [he]
  · intro h
    simp only [safe_extract_tar]
    cases hchk : check_members extract_to members with
    | error e => exact ⟨e, [], rfl⟩
    | ok ws =>
      dsimp only
      cases hext : extractall_data extract_to members with
      | mk written err =>
        cases err with
        | none =>
          exfalso
          rcases h with ⟨m, hm, hout⟩
          have := (extractall_data_spec extract_to members).2
          rw [hext] at this
          rw [this rfl m hm] at hout
          cases hout
        | some m2 =>
          exact ⟨outside_destination_error extract_to m2, written, rfl⟩
  · intro h
    have hpass : ∀ m2 ∈ members, member_check_passes extract_to m2 = true :=
      fun m2 hm2 => member_check_of_inside extract_to m2 (h m2 hm2)
    rcases check_members_ok extract_to members hpass with ⟨ws, hws, _⟩
    refine ⟨ws, ?_⟩
    simp only [safe_extract_tar]
    rw [hws, extractall_data_all_inside extract_to members h]

/-- Witness for C2 at concrete archives: a member inside the root extracts
normally, and an archive with an escaping member aborts with an error. -/
theorem extraction_path_containment_witness :
    ((∀ m ∈ [TarMember.mk [("pkg"), ("PKGBUILD")] 7],
      member_inside [("tmp"), ("x")] m = true) ∧
    (∃ warnings, safe_extract_tar [] [("tmp"), ("x")] [TarMember.mk [("pkg"), ("PKGBUILD")] 7]
      = ExtractResult.ok [] warnings [TarMember.mk [("pkg"), ("PKGBUILD")] 7]))
    ∧ ((∃ m ∈ [TarMember.mk [(".."), ("xevil"), ("pwned")] 5],
      member_inside [("tmp"), ("x")] m = false) ∧
    (∃ msg written, safe_extract_tar [] [("tmp"), ("x")]
        [TarMember.mk [(".."), ("xevil"), ("pwned")] 5]
      = ExtractResult.error msg written)) := by
  refine ⟨⟨by decide, ?_⟩, ⟨by decide, ?_⟩⟩
  · exact (extraction_path_containment [] [("tmp"), ("x")]
      [TarMember.mk [("pkg"), ("PKGBUILD")] 7]).2.2.2 (by decide)
  · exact (extraction_path_containment [] [("tmp"), ("x")]
      [TarMember.mk [(".."), ("xevil"), ("pwned")] 5]).2.2.1 (by decide)

/-- C5 counterexample: the claim fails as stated — for an archive holding
one in-root member just over the 100 MiB threshold, extraction succeeds and
produces a log warning, but the scan findings list comes back exactly as it
went in (empty here): no finding flagging the member is added anywhere. -/
theorem oversized_member_no_finding_refuted :
    safe_extract_tar [] [("tmp"), ("scan")] [TarMember.mk [("big.bin")] (100 * 1024 * 1024 + 1)]
      = ExtractResult.ok []
          [large_file_warning (TarMember.mk [("big.bin")] (100 * 1024 * 1024 + 1))]
          [TarMember.mk [("big.bin")] (100 * 1024 * 1024 + 1)]
    ∧ (100 * 1024 * 1024 + 1 > oversize_threshold) := by
  constructor
  · rfl
  · decide

/-- C5 as amended: an archive member larger than the fixed 100 MiB
threshold never makes extraction fail; when every member resolves inside
the extraction root (so that neither containment layer objects),
extraction succeeds, the findings list is returned unchanged (no finding
is added for the oversized member — the source only logs), and the
warning log names the member. -/
theorem oversized_member_warning (findings : List SecurityFinding)
    (extract_to : List String) (members : List TarMember) (m : TarMember) :
    m ∈ members → m.size > oversize_threshold →
    (∀ m2 ∈ members, member_inside extract_to m2 = true) →
    ∃ warnings, safe_extract_tar findings extract_to members
        = ExtractResult.ok findings warnings members
      ∧ large_file_warning m ∈ warnings := by
  intro hm hsize hin
  have hpass : ∀ m2 ∈ members, member_check_passes extract_to m2 = true :=
    fun m2 hm2 => member_check_of_inside extract_to m2 (hin m2 hm2)
  rcases check_members_ok extract_to members hpass with ⟨ws, hws, hwarn⟩
  refine ⟨ws, ?_, hwarn m hm hsize⟩
  simp only [safe_extract_tar]
  rw [hws, extractall_data_all_inside extract_to members hin]

/-- Witness for C5 at a concrete archive: one ordinary member and one
101 MiB member, both inside the root; extraction succeeds with unchanged
findings and warns about the large member. -/
theorem oversized_member_warning_witness :
    ((TarMember.mk [("big.bin")] (100 * 1024 * 1024 + 1))
        ∈ [TarMember.mk [("PKGBUILD")] 10, TarMember.mk [("big.bin")] (100 * 1024 * 1024 + 1)]) ∧
    (100 * 1024 * 1024 + 1 > oversize_threshold) ∧
    (∀ m2 ∈ [TarMember.mk [("PKGBUILD")] 10, TarMember.mk [("big.bin")] (100 * 1024 * 1024 + 1)],
      member_inside [("tmp"), ("scan")] m2 = true) ∧
    (∃ warnings,
      safe_extract_tar [sample_finding RiskLevel.low] [("tmp"), ("scan")]
          [TarMember.mk [("PKGBUILD")] 10, TarMember.mk [("big.bin")] (100 * 1024 * 1024 + 1)]
        = ExtractResult.ok [sample_finding RiskLevel.low] warnings
            [TarMember.mk [("PKGBUILD")] 10, TarMember.mk [("big.bin")] (100 * 1024 * 1024 + 1)]
      ∧ large_file_warning (TarMember.mk [("big.bin")] (100 * 1024 * 1024 + 1)) ∈ warnings) := by
  refine ⟨by decide, by decide, by decide, ?_⟩
  exact oversized_member_warning [sample_finding RiskLevel.low] [("tmp"), ("scan")]
    [TarMember.mk [("PKGBUILD")] 10, TarMember.mk [("big.bin")] (100 * 1024 * 1024 + 1)]
    (TarMember.mk [("big.bin")] (100 * 1024 * 1024 + 1))
    (by decide) (by decide) (by decide)

/-! ## Dependency resolution (pkger.py, PackageTool._resolve_aur_dependencies)

The AUR metadata cache is modelled as a finite association list from
package name to its info record; the local database and the sync
repositories as boolean predicates.  The recursive visit closure is
embedded with a fuel argument; resolve runs it with fuel one larger than
the registry, which the lemmas below show can never run out. -/

/-- Character class of the dependency-stripping regex [\w.-]
(word characters restricted to ASCII, as AUR names are). -/
def dep_char (c : Char) : Bool :=
  ('a' ≤ c && c ≤ 'z') || ('A' ≤ c && c ≤ 'Z') || ('0' ≤ c && c ≤ '9') ||
    c = '_' || c = '.' || c = '-'

/-- dep_pattern.match(d) of _resolve_aur_dependencies: the maximal prefix of
characters in [\w.-], or None when the first character is outside it
(such a spec is dropped from the dependency list). -/
def dep_pattern_match (d : String) : Option String :=
  let cs := d.data.takeWhile dep_char
  if cs.isEmpty then none else some (String.mk cs)

/-- Info record for one AUR package, with the depends and makedepends
lists the resolver reads (absent keys are empty lists). -/
structure AurInfo where
  depends : List String
  makedepends : List String
deriving DecidableEq

/-- The bare dependency names visit iterates over: runtime plus build
dependency specs, each stripped by dep_pattern. -/
def strip_deps (info : AurInfo) : List String :=
  (info.depends ++ info.makedepends).filterMap dep_pattern_match

/-- C6 counterexample: the claim fails as stated — the name gtk+ lies in
the allowed name charset (alphanumeric . _ + -), but the stripping regex
class [\w.-] has no +, so the spec gtk+>=2.0 strips to gtk, not to gtk+. -/
theorem strip_dep_plus_refuted :
    ("gtk+").data.all allowed_name_char = true
    ∧ dep_pattern_match ("gtk+>=2.0") ≠ some ("gtk+")
    ∧ dep_pattern_match ("gtk+>=2.0") = some ("gtk") := by
  refine ⟨by decide, by decide, by decide⟩

/-- C6 as amended: for a package name over the regex charset (alphanumeric,
dot, underscore, hyphen — the + of the allowed name charset is not matched,
names carrying it are truncated at the +), followed by an optional
version/comparator suffix starting with one of greater-than, equals or
less-than, the stripping step recovers exactly the bare name, and that
bare name is what the resolver's dependency walk receives. -/
theorem strip_dep_recovers_name (name_cs suffix : List Char) :
    name_cs ≠ [] → name_cs.all dep_char = true →
    (suffix = [] ∨ suffix.head? = some '>' ∨ suffix.head? = some '='
      ∨ suffix.head? = some '<') →
    dep_pattern_match (String.mk (name_cs ++ suffix)) = some (String.mk name_cs)
    ∧ strip_deps (AurInfo.mk [String.mk (name_cs ++ suffix)] [])
      = [String.mk name_cs] := by
  intro hne hall hsuf
  have htake : (name_cs ++ suffix).takeWhile dep_char = name_cs := by
    have hsufnil : suffix.takeWhile dep_char = [] := by
      cases suffix with
      | nil => rfl
      | cons c cs =>
        have hdc : dep_char c = false := by
          rcases hsuf with h | h | h | h
          · exact absurd h (List.cons_ne_nil c cs)
          all_goals {
            simp only [List.head?, Option.some.injEq] at h
            rw [h]
            decide
          }
        simp [List.takeWhile, hdc]
    induction name_cs with
    | nil =>
      simpa using hsufnil
    | cons c cs ih =>
      have hc : dep_char c = true := (List.all_eq_true.mp hall) c (List.mem_cons_self _ _)
      by_cases hcs : cs = []
      · subst hcs
        simp [List.takeWhile, hc, hsufnil]
      · have hall2 : cs.all dep_char = true := by
          rw [List.all_eq_true]
          intro x hx
          exact (List.all_eq_true.mp hall) x (List.mem_cons_of_mem _ hx)
        simp [List.takeWhile, hc, ih hcs hall2]
  constructor
  · simp only [dep_pattern_match]
    rw [htake]
    rw [if_neg (by simpa using hne)]
  · simp only [strip_deps, List.filterMap, dep_pattern_match]
    rw [htake]
    rw [if_neg (by simpa using hne)]

/-- Witness for C6 at the concrete spec python-requests>=2.0: stripping
recovers python-requests, also through strip_deps. -/
theorem strip_dep_recovers_name_witness :
    dep_pattern_match (String.mk (("python-requests").data ++ (">=2.0").data))
      = some (String.mk ("python-requests").data)
    ∧ strip_deps (AurInfo.mk [String.mk (("python-requests").data ++ (">=2.0").data)] [])
      = [String.mk ("python-requests").data] :=
  strip_dep_recovers_name ("python-requests").data (">=2.0").data
    (by decide) (by decide) (by decide)

/-- The environment one _resolve_aur_dependencies run reads: the AUR
registry reachable through _get_aur_info (a finite association list — the
cache is write-once, so a pure lookup), self.localdb.get_pkg and
self._is_in_repos as predicates. -/
structure ResolveEnv where
  registry : List (String × AurInfo)
  localdb : String → Bool
  in_repos : String → Bool

/-- The mutable state of one run: the order output list and the visited
set (the Python visited set only ever grows; the in-progress stack is
visited minus order). -/
structure ResolveState where
  order : List String
  visited : List String

/-- The RuntimeError outcomes of the resolver, plus fuel exhaustion of the
embedding (shown unreachable below). -/
inductive ResolveError where
  | circularDependency (pkg : String)
  | unresolvable (pkg : String)
  | outOfFuel
deriving DecidableEq

/-- Lookup in the registry association list. -/
def registry_find : List (String × AurInfo) → String → Option AurInfo
  | [], _ => none
  | (k, info) :: rest, pkg => if k = pkg then some info else registry_find rest pkg

/-- self._get_aur_info([pkg]).get(pkg). -/
def get_aur_info (env : ResolveEnv) (pkg : String) : Option AurInfo :=
  registry_find env.registry pkg

/-- The for-loop of visit over the stripped dependency names: skip names
found in the sync repositories, recurse into the rest. -/
def visit_deps (rec : String → ResolveState → Except ResolveError ResolveState)
    (env : ResolveEnv) : List String → ResolveState → Except ResolveError ResolveState
  | [], st => Except.ok st
  | d :: ds, st =>
    if env.in_repos d = true then visit_deps rec env ds st
    else
      match rec d st with
      | Except.error e => Except.error e
      | Except.ok st2 => visit_deps rec env ds st2

/-- The recursive visit closure of _resolve_aur_dependencies: return for a
locally installed or already output name, raise on a name already being
expanded, look the name up, walk its stripped dependencies, then append the
name to the order. -/
def visit (env : ResolveEnv) : Nat → String → ResolveState → Except ResolveError ResolveState
  | 0, _, _ => Except.error ResolveError.outOfFuel
  | fuel + 1, pkg, st =>
    if env.localdb pkg = true ∨ pkg ∈ st.order then Except.ok st
    else if pkg ∈ st.visited then Except.error (ResolveError.circularDependency pkg)
    else
      match get_aur_info env pkg with
      | none => Except.error (ResolveError.unresolvable pkg)
      | some info =>
        match visit_deps (fun d s => visit env fuel d s) env (strip_deps info)
            (ResolveState.mk st.order (pkg :: st.visited)) with
        | Except.error e => Except.error e
        | Except.ok st2 => Except.ok (ResolveState.mk (st2.order ++ [pkg]) st2.visited)

/-- The top-level loop of _resolve_aur_dependencies over the requested
names. -/
def visit_all (env : ResolveEnv) (fuel : Nat) :
    List String → ResolveState → Except ResolveError ResolveState
  | [], st => Except.ok st
  | n :: ns, st =>
    match visit env fuel n st with
    | Except.error e => Except.error e
    | Except.ok st2 => visit_all env fuel ns st2

/-- PackageTool._resolve_aur_dependencies: run the visit loop from the
empty state and return the order list.  The fuel is one more than the
registry size; the no-fuel-error lemma below shows it never runs out. -/
def resolve_aur_dependencies (env : ResolveEnv) (names : List String) :
    Except ResolveError (List String) :=
  match visit_all env (env.registry.length + 1) names (ResolveState.mk [] []) with
  | Except.error e => Except.error e
  | Except.ok st => Except.ok st.order

/-- The names the registry holds metadata for. -/
def registry_keys (env : ResolveEnv) : List String :=
  env.registry.map Prod.fst

/-- The stripped dependency names of a registry entry ([] off the registry). -/
def deps_of_key (env : ResolveEnv) (n : String) : List String :=
  match get_aur_info env n with
  | some info => strip_deps info
  | none => []

/-- The requested names and every dependency the walk can reach have
metadata, are locally installed, or sit in the sync repositories — the
hypothesis under which the registry never returns a missing record. -/
def resolve_closed (env : ResolveEnv) (names : List String) : Prop :=
  (∀ r ∈ names, env.localdb r = true ∨ r ∈ registry_keys env) ∧
  (∀ n ∈ registry_keys env, ∀ d ∈ deps_of_key env n,
    env.in_repos d = true ∨ env.localdb d = true ∨ d ∈ registry_keys env)

/-- A rank function strictly decreasing along every dependency edge between
unsatisfied packages: the standard finite-graph certificate that the
dependency graph restricted to such packages has no cycle. -/
def rank_ok (env : ResolveEnv) (rk : String → Nat) : Prop :=
  ∀ n ∈ registry_keys env, ∀ d ∈ deps_of_key env n,
    env.in_repos d = false → env.localdb d = false → rk d < rk n

/-- A dependency edge between unsatisfied packages: n has metadata naming d
among its stripped dependencies, and d is neither in the sync repositories
nor locally installed. -/
def dep_edge (env : ResolveEnv) (n d : String) : Prop :=
  (∃ info, get_aur_info env n = some info ∧ d ∈ strip_deps info) ∧
    env.in_repos d = false ∧ env.localdb d = false

/-- A dependency edge regardless of local satisfaction. -/
def dep_edge_any (env : ResolveEnv) (n d : String) : Prop :=
  ∃ info, get_aur_info env n = some info ∧ d ∈ strip_deps info

/-- The output invariant: order has no duplicate, never contains a locally
installed name, and lists every unsatisfied dependency of each of its
members before that member. -/
def good_state (env : ResolveEnv) (st : ResolveState) : Prop :=
  st.order.Nodup ∧ (∀ m ∈ st.order, env.localdb m = false) ∧
  (∀ m ∈ st.order, ∀ d, dep_edge env m d →
    d ∈ st.order ∧ st.order.indexOf d < st.order.indexOf m)

/-- What one successful visit call does to the state: extends order on the
right, grows visited, adds nothing to the in-progress stack (visited minus
order), adds only previously unvisited names to order, and preserves the
output invariant. -/
def inv_step (env : ResolveEnv) (st st2 : ResolveState) : Prop :=
  (∃ t, st2.order = st.order ++ t) ∧
  (∀ x ∈ st.visited, x ∈ st2.visited) ∧
  (∀ m, m ∈ st2.visited → m ∉ st2.order → m ∈ st.visited) ∧
  (∀ m ∈ st2.order, m ∈ st.order ∨ m ∉ st.visited) ∧
  (good_state env st → good_state env st2)

theorem inv_step_refl (env : ResolveEnv) (st : ResolveState) : inv_step env st st :=
  ⟨⟨[], (List.append_nil _).symm⟩, fun _ hx => hx, fun _ hm hno => by
      exact hm, fun m hm => Or.inl hm, fun h => h⟩

theorem order_sub_of_inv_step {env : ResolveEnv} {st st2 : ResolveState}
    (h : inv_step env st st2) : ∀ m ∈ st.order, m ∈ st2.order := by
  intro m hm
  rcases h.1 with ⟨t, ht⟩
  rw [ht]
  exact List.mem_append_left _ hm

theorem inv_step_trans {env : ResolveEnv} {st1 st2 st3 : ResolveState}
    (h12 : inv_step env st1 st2) (h23 : inv_step env st2 st3) : inv_step env st1 st3 := by
  obtain ⟨⟨t1, ho1⟩, hv1, hs1, hn1, hg1⟩ := h12
  obtain ⟨⟨t2, ho2⟩, hv2, hs2, hn2, hg2⟩ := h23
  refine ⟨⟨t1 ++ t2, by rw [ho2, ho1, List.append_assoc]⟩, ?_, ?_, ?_, ?_⟩
  · intro x hx
    exact hv2 x (hv1 x hx)
  · intro m hm hno
    have hno2 : m ∉ st2.order := by
      intro hc
      exact hno (order_sub_of_inv_step ⟨⟨t2, ho2⟩, hv2, hs2, hn2, hg2⟩ m hc)
    exact hs1 m (hs2 m hm hno) hno2
  · intro m hm
    rcases hn2 m hm with h2 | h2
    · exact hn1 m h2
    · right
      intro hc
      exact h2 (hv1 m hc)
  · intro hg
    exact hg2 (hg1 hg)

theorem visit_deps_inv (env : ResolveEnv)
    (rec : String → ResolveState → Except ResolveError ResolveState)
    (Hrec : ∀ d st st2, rec d st = Except.ok st2 →
      inv_step env st st2 ∧ (env.localdb d = true ∨ d ∈ st2.order)) :
    ∀ ds st st2, visit_deps rec env ds st = Except.ok st2 →
      inv_step env st st2 ∧
        ∀ d ∈ ds, env.in_repos d = true ∨ env.localdb d = true ∨ d ∈ st2.order := by
  intro ds
  induction ds with
  | nil =>
    intro st st2 h
    simp only [visit_deps] at h
    cases h
    exact ⟨inv_step_refl env st, fun d hd => absurd hd (List.not_mem_nil d)⟩
  | cons d ds ih =>
    intro st st2 h
    simp only [visit_deps] at h
    by_cases hr : env.in_repos d = true
    · rw [if_pos hr] at h
      rcases ih st st2 h with ⟨hinv, hall⟩
      refine ⟨hinv, ?_⟩
      intro d2 hd2
      rcases List.mem_cons.mp hd2 with he | ht
      · subst he
        exact Or.inl hr
      · exact hall d2 ht
    · rw [if_neg hr] at h
      cases hrec : rec d st with
      | error e =>
        rw [hrec] at h
        cases h
      | ok st3 =>
        rw [hrec] at h
        rcases Hrec d st st3 hrec with ⟨hinv1, hd⟩
        rcases ih st3 st2 h with ⟨hinv2, hall⟩
        refine ⟨inv_step_trans hinv1 hinv2, ?_⟩
        intro d2 hd2
        rcases List.mem_cons.mp hd2 with he | ht
        · subst he
          right
          rcases hd with hl | ho
          · exact Or.inl hl
          · exact Or.inr (order_sub_of_inv_step hinv2 d2 ho)
        · exact hall d2 ht

theorem visit_inv (env : ResolveEnv) :
    ∀ fuel pkg st st2, visit env fuel pkg st = Except.ok st2 →
      inv_step env st st2 ∧ (env.localdb pkg = true ∨ pkg ∈ st2.order) := by
  intro fuel
  induction fuel with
  | zero =>
    intro pkg st st2 h
    exact Except.noConfusion h
  | succ fuel ih =>
    intro pkg st st2 h
    simp only [visit] at h
    by_cases h1 : env.localdb pkg = true ∨ pkg ∈ st.order
    · rw [if_pos h1] at h
      cases h
      exact ⟨inv_step_refl env st, h1⟩
    · rw [if_neg h1] at h
      by_cases h2 : pkg ∈ st.visited
      · rw [if_pos h2] at h
        cases h
      · rw [if_neg h2] at h
        have hpo : pkg ∉ st.order := fun hc => h1 (Or.inr hc)
        have hldf : env.localdb pkg = false := by
          cases hb : env.localdb pkg with
          | false => rfl
          | true => exact absurd (Or.inl hb) h1
        cases hinfo : get_aur_info env pkg with
        | none =>
          rw [hinfo] at h
          cases h
        | some info =>
          rw [hinfo] at h
          dsimp only at h
          cases hdeps : visit_deps (fun d s => visit env fuel d s) env (strip_deps info)
              (ResolveState.mk st.order (pkg :: st.visited)) with
          | error e =>
            rw [hdeps] at h
            cases h
          | ok st3 =>
            rw [hdeps] at h
            cases h
            rcases visit_deps_inv env (fun d s => visit env fuel d s)
                (fun d s s2 hc => ih d s s2 hc) (strip_deps info)
                (ResolveState.mk st.order (pkg :: st.visited)) st3 hdeps with ⟨hinv, hall⟩
            obtain ⟨⟨t, horder⟩, hvis, hstack, hnew, hgood⟩ := hinv
            have hpnew : pkg ∉ st3.order := by
              intro hc
              rcases hnew pkg hc with hcc | hcc
              · exact hpo hcc
              · exact hcc (List.mem_cons_self _ _)
            refine ⟨⟨⟨t ++ [pkg], ?_⟩, ?_, ?_, ?_, ?_⟩, ?_⟩
            · show st3.order ++ [pkg] = st.order ++ (t ++ [pkg])
              rw [horder]
              simp [List.append_assoc]
            · intro x hx
              exact hvis x (List.mem_cons_of_mem _ hx)
            · intro m hm hno
              have hm1 : m ∈ pkg :: st.visited := hstack m hm (fun hc =>
                hno (List.mem_append_left _ hc))
              rcases List.mem_cons.mp hm1 with he | ht
              · exact absurd (he ▸ List.mem_append_right _ (List.mem_singleton.mpr rfl)) hno
              · exact ht
            · intro m hm
              rcases List.mem_append.mp hm with hmo | hmp
              · rcases hnew m hmo with hcc | hcc
                · exact Or.inl hcc
                · exact Or.inr (fun hc => hcc (List.mem_cons_of_mem _ hc))
              · rw [List.mem_singleton.mp hmp]
                exact Or.inr h2
            · intro hg
              have hg3 : good_state env st3 := hgood hg
              obtain ⟨hnd, hldb, hdep⟩ := hg3
              refine ⟨?_, ?_, ?_⟩
              · rw [List.nodup_append]
                exact ⟨hnd, List.nodup_singleton _, fun a ha hb =>
                  (List.mem_singleton.mp hb ▸ hpnew) ha⟩
              · intro m hm
                rcases List.mem_append.mp hm with hmo | hmp
                · exact hldb m hmo
                · rw [List.mem_singleton.mp hmp]
                  exact hldf
              · intro m hm d hd
                rcases List.mem_append.mp hm with hmo | hmp
                · rcases hdep m hmo d hd with ⟨hdin, hlt⟩
                  refine ⟨List.mem_append_left _ hdin, ?_⟩
                  rw [List.indexOf_append_of_mem hdin, List.indexOf_append_of_mem hmo]
                  exact hlt
                · have hmpkg : m = pkg := List.mem_singleton.mp hmp
                  subst hmpkg
                  obtain ⟨⟨info2, hinfo2, hdmem⟩, hrep2, hldb2⟩ := hd
                  have : info2 = info := by
                    rw [hinfo] at hinfo2
                    exact (Option.some.inj hinfo2).symm
                  subst this
                  have hdone := hall d hdmem
                  rcases hdone with hcc | hcc
                  · exact absurd hcc (by rw [hrep2]; exact Bool.false_ne_true)
                  rcases hcc with hcc | hcc
                  · exact absurd hcc (by rw [hldb2]; exact Bool.false_ne_true)
                  · refine ⟨List.mem_append_left _ hcc, ?_⟩
                    rw [List.indexOf_append_of_mem hcc,
                        List.indexOf_append_of_not_mem hpnew]
                    have hlt := List.indexOf_lt_length.mpr hcc
                    simp only [List.indexOf_cons_self]
                    omega
            · right
              exact List.mem_append_right _ (List.mem_singleton.mpr rfl)

/-- Registry names not yet visited: the fuel argument of visit stays above
this number. -/
def keys_remaining (env : ResolveEnv) (st : ResolveState) : Nat :=
  (registry_keys env).countP (fun k => decide (k ∉ st.visited))

theorem keys_remaining_mono (env : ResolveEnv) (st st2 : ResolveState)
    (hsub : ∀ x ∈ st.visited, x ∈ st2.visited) :
    keys_remaining env st2 ≤ keys_remaining env st := by
  refine List.countP_mono_left ?_
  intro k _ hk
  simp only [decide_eq_true_eq] at hk ⊢
  intro hc
  exact hk (hsub k hc)

theorem countP_not_mem_cons_lt (ks v : List String) (pkg : String)
    (hk : pkg ∈ ks) (hv : pkg ∉ v) :
    ks.countP (fun k => decide (k ∉ pkg :: v)) < ks.countP (fun k => decide (k ∉ v)) := by
  induction ks with
  | nil => cases hk
  | cons k ks ih =>
    simp only [List.countP_cons]
    by_cases he : k = pkg
    · subst he
      have hL : (decide (k ∉ k :: v)) = false := by
        simp
      have hR : (decide (k ∉ v)) = true := by
        simp [hv]
      rw [hL, hR, if_neg Bool.false_ne_true, if_pos rfl]
      have hle : ks.countP (fun k2 => decide (k2 ∉ k :: v))
          ≤ ks.countP (fun k2 => decide (k2 ∉ v)) := by
        refine List.countP_mono_left ?_
        intro x _ hx
        simp only [decide_eq_true_eq] at hx ⊢
        intro hc
        exact hx (List.mem_cons_of_mem _ hc)
      omega
    · have hk2 : pkg ∈ ks := by
        rcases List.mem_cons.mp hk with h | h
        · exact absurd h.symm he
        · exact h
      have hsame : (decide (k ∉ pkg :: v)) = (decide (k ∉ v)) := by
        by_cases hm : k ∈ v
        · simp [hm]
        · simp [hm, he]
      rw [hsame]
      have := ih hk2
      omega

theorem keys_remaining_lt (env : ResolveEnv) (st : ResolveState) (pkg : String)
    (hk : pkg ∈ registry_keys env) (hv : pkg ∉ st.visited) :
    keys_remaining env (ResolveState.mk st.order (pkg :: st.visited))
      < keys_remaining env st :=
  countP_not_mem_cons_lt (registry_keys env) st.visited pkg hk hv

theorem registry_find_mem (reg : List (String × AurInfo)) (pkg : String) (info : AurInfo)
    (h : registry_find reg pkg = some info) : pkg ∈ reg.map Prod.fst := by
  induction reg with
  | nil => cases h
  | cons p rest ih =>
    obtain ⟨k, i⟩ := p
    simp only [registry_find] at h
    by_cases he : k = pkg
    · subst he
      exact List.mem_cons_self _ _
    · rw [if_neg he] at h
      exact List.mem_cons_of_mem _ (ih h)

theorem registry_find_of_mem (reg : List (String × AurInfo)) (pkg : String)
    (h : pkg ∈ reg.map Prod.fst) : ∃ info, registry_find reg pkg = some info := by
  induction reg with
  | nil => cases h
  | cons p rest ih =>
    obtain ⟨k, i⟩ := p
    simp only [registry_find]
    by_cases he : k = pkg
    · rw [if_pos he]
      exact ⟨i, rfl⟩
    · rw [if_neg he]
      apply ih
      rcases List.mem_cons.mp h with h2 | h2
      · exact absurd h2.symm he
      · exact h2

theorem visit_deps_ne_fuel (env : ResolveEnv)
    (rec : String → ResolveState → Except ResolveError ResolveState) (n : Nat)
    (Hrec_ne : ∀ d st, keys_remaining env st < n →
      rec d st ≠ Except.error ResolveError.outOfFuel)
    (Hrec_inv : ∀ d st st2, rec d st = Except.ok st2 → ∀ x ∈ st.visited, x ∈ st2.visited) :
    ∀ ds st, keys_remaining env st < n →
      visit_deps rec env ds st ≠ Except.error ResolveError.outOfFuel := by
  intro ds
  induction ds with
  | nil =>
    intro st hst h
    simp only [visit_deps] at h
    cases h
  | cons d ds ih =>
    intro st hst h
    simp only [visit_deps] at h
    by_cases hr : env.in_repos d = true
    · rw [if_pos hr] at h
      exact ih st hst h
    · rw [if_neg hr] at h
      cases hrec : rec d st with
      | error e =>
        rw [hrec] at h
        dsimp only at h
        exact Hrec_ne d st hst (hrec.trans h)
      | ok st2 =>
        rw [hrec] at h
        dsimp only at h
        have hmono := Hrec_inv d st st2 hrec
        exact ih st2 (lt_of_le_of_lt (keys_remaining_mono env st st2 hmono) hst) h

theorem visit_ne_fuel (env : ResolveEnv) :
    ∀ fuel st pkg, keys_remaining env st < fuel →
      visit env fuel pkg st ≠ Except.error ResolveError.outOfFuel := by
  intro fuel
  induction fuel with
  | zero =>
    intro st pkg hlt
    exact absurd hlt (Nat.not_lt_zero _)
  | succ fuel ih =>
    intro st pkg hlt heq
    simp only [visit] at heq
    by_cases h1 : env.localdb pkg = true ∨ pkg ∈ st.order
    · rw [if_pos h1] at heq
      cases heq
    · rw [if_neg h1] at heq
      by_cases h2 : pkg ∈ st.visited
      · rw [if_pos h2] at heq
        exact ResolveError.noConfusion (Except.error.inj heq)
      · rw [if_neg h2] at heq
        cases hinfo : get_aur_info env pkg with
        | none =>
          rw [hinfo] at heq
          dsimp only at heq
          exact ResolveError.noConfusion (Except.error.inj heq)
        | some info =>
          rw [hinfo] at heq
          dsimp only at heq
          have hkmem : pkg ∈ registry_keys env := registry_find_mem env.registry pkg info hinfo
          have hlt2 : keys_remaining env (ResolveState.mk st.order (pkg :: st.visited)) < fuel := by
            have := keys_remaining_lt env st pkg hkmem h2
            omega
          cases hdeps : visit_deps (fun d s => visit env fuel d s) env (strip_deps info)
              (ResolveState.mk st.order (pkg :: st.visited)) with
          | error e =>
            rw [hdeps] at heq
            dsimp only at heq
            refine visit_deps_ne_fuel env (fun d s => visit env fuel d s) fuel
              (fun d s hs => ih s d hs)
              (fun d s s2 hok => (visit_inv env fuel d s s2 hok).1.2.1)
              (strip_deps info) (ResolveState.mk st.order (pkg :: st.visited)) hlt2
              (hdeps.trans heq)
          | ok st3 =>
            rw [hdeps] at heq
            dsimp only at heq
            cases heq

theorem visit_deps_no_unres (env : ResolveEnv)
    (rec : String → ResolveState → Except ResolveError ResolveState) (m : String)
    (Hrec : ∀ d st, (env.localdb d = true ∨ d ∈ registry_keys env) →
      rec d st ≠ Except.error (ResolveError.unresolvable m)) :
    ∀ ds st, (∀ d ∈ ds, env.in_repos d = true ∨ env.localdb d = true ∨ d ∈ registry_keys env) →
      visit_deps rec env ds st ≠ Except.error (ResolveError.unresolvable m) := by
  intro ds
  induction ds with
  | nil =>
    intro st _ h
    simp only [visit_deps] at h
    cases h
  | cons d ds ih =>
    intro st hds h
    simp only [visit_deps] at h
    by_cases hr : env.in_repos d = true
    · rw [if_pos hr] at h
      exact ih st (fun x hx => hds x (List.mem_cons_of_mem _ hx)) h
    · rw [if_neg hr] at h
      have hd : env.localdb d = true ∨ d ∈ registry_keys env := by
        rcases hds d (List.mem_cons_self _ _) with hc | hc
        · exact absurd hc hr
        · exact hc
      cases hrec : rec d st with
      | error e =>
        rw [hrec] at h
        dsimp only at h
        exact Hrec d st hd (hrec.trans h)
      | ok st2 =>
        rw [hrec] at h
        dsimp only at h
        exact ih st2 (fun x hx => hds x (List.mem_cons_of_mem _ hx)) h

theorem visit_no_unres (env : ResolveEnv)
    (hc2 : ∀ n ∈ registry_keys env, ∀ d ∈ deps_of_key env n,
      env.in_repos d = true ∨ env.localdb d = true ∨ d ∈ registry_keys env) :
    ∀ fuel pkg st m, (env.localdb pkg = true ∨ pkg ∈ registry_keys env) →
      visit env fuel pkg st ≠ Except.error (ResolveError.unresolvable m) := by
  intro fuel
  induction fuel with
  | zero =>
    intro pkg st m _ heq
    exact ResolveError.noConfusion (Except.error.inj heq)
  | succ fuel ih =>
    intro pkg st m hpk heq
    simp only [visit] at heq
    by_cases h1 : env.localdb pkg = true ∨ pkg ∈ st.order
    · rw [if_pos h1] at heq
      cases heq
    · rw [if_neg h1] at heq
      by_cases h2 : pkg ∈ st.visited
      · rw [if_pos h2] at heq
        exact ResolveError.noConfusion (Except.error.inj heq)
      · rw [if_neg h2] at heq
        have hkeys : pkg ∈ registry_keys env := by
          rcases hpk with hc | hc
          · exact absurd (Or.inl hc) h1
          · exact hc
        cases hinfo : get_aur_info env pkg with
        | none =>
          rcases registry_find_of_mem env.registry pkg hkeys with ⟨info, hsome⟩
          rw [show get_aur_info env pkg = registry_find env.registry pkg from rfl] at hinfo
          rw [hsome] at hinfo
          cases hinfo
        | some info =>
          rw [hinfo] at heq
          dsimp only at heq
          have hdeps_cl : ∀ d ∈ strip_deps info,
              env.in_repos d = true ∨ env.localdb d = true ∨ d ∈ registry_keys env := by
            intro d hd
            refine hc2 pkg hkeys d ?_
            simp only [deps_of_key, hinfo]
            exact hd
          cases hdeps : visit_deps (fun d s => visit env fuel d s) env (strip_deps info)
              (ResolveState.mk st.order (pkg :: st.visited)) with
          | error e =>
            rw [hdeps] at heq
            dsimp only at heq
            exact visit_deps_no_unres env (fun d s => visit env fuel d s) m
              (fun d s hd2 => ih d s m hd2) (strip_deps info)
              (ResolveState.mk st.order (pkg :: st.visited)) hdeps_cl (hdeps.trans heq)
          | ok st3 =>
            rw [hdeps] at heq
            dsimp only at heq
            cases heq

/-- The current in-progress stack all lies strictly above a name in rank. -/
def stack_pre (rk : String → Nat) (pkg : String) (st : ResolveState) : Prop :=
  ∀ x ∈ st.visited, x ∉ st.order → rk pkg < rk x

theorem stack_pre_of_inv_step {env : ResolveEnv} {rk : String → Nat} {d : String}
    {st st2 : ResolveState} (hinv : inv_step env st st2) (h : stack_pre rk d st) :
    stack_pre rk d st2 := by
  intro x hx hno
  have hx1 : x ∈ st.visited := hinv.2.2.1 x hx hno
  have hno1 : x ∉ st.order := by
    intro hc
    exact hno (order_sub_of_inv_step hinv x hc)
  exact h x hx1 hno1

theorem visit_deps_no_circ (env : ResolveEnv)
    (rec : String → ResolveState → Except ResolveError ResolveState)
    (rk : String → Nat) (m : String)
    (Hrec_ne : ∀ d st, (env.localdb d = true ∨ stack_pre rk d st) →
      rec d st ≠ Except.error (ResolveError.circularDependency m))
    (Hrec_inv : ∀ d st st2, rec d st = Except.ok st2 → inv_step env st st2) :
    ∀ ds st, (∀ d ∈ ds, env.in_repos d = false →
        (env.localdb d = true ∨ stack_pre rk d st)) →
      visit_deps rec env ds st ≠ Except.error (ResolveError.circularDependency m) := by
  intro ds
  induction ds with
  | nil =>
    intro st _ h
    simp only [visit_deps] at h
    cases h
  | cons d ds ih =>
    intro st hds h
    simp only [visit_deps] at h
    by_cases hr : env.in_repos d = true
    · rw [if_pos hr] at h
      exact ih st (fun x hx hx2 => hds x (List.mem_cons_of_mem _ hx) hx2) h
    · rw [if_neg hr] at h
      have hrf : env.in_repos d = false := by
        cases hb : env.in_repos d with
        | false => rfl
        | true => exact absurd hb hr
      cases hrec : rec d st with
      | error e =>
        rw [hrec] at h
        dsimp only at h
        exact Hrec_ne d st (hds d (List.mem_cons_self _ _) hrf) (hrec.trans h)
      | ok st2 =>
        rw [hrec] at h
        dsimp only at h
        have hinv := Hrec_inv d st st2 hrec
        refine ih st2 ?_ h
        intro x hx hx2
        rcases hds x (List.mem_cons_of_mem _ hx) hx2 with hc | hc
        · exact Or.inl hc
        · exact Or.inr (stack_pre_of_inv_step hinv hc)

theorem visit_no_circ (env : ResolveEnv) (rk : String → Nat) (hrk : rank_ok env rk) :
    ∀ fuel pkg st m, (env.localdb pkg = true ∨ stack_pre rk pkg st) →
      visit env fuel pkg st ≠ Except.error (ResolveError.circularDependency m) := by
  intro fuel
  induction fuel with
  | zero =>
    intro pkg st m _ heq
    exact ResolveError.noConfusion (Except.error.inj heq)
  | succ fuel ih =>
    intro pkg st m hpre heq
    simp only [visit] at heq
    by_cases h1 : env.localdb pkg = true ∨ pkg ∈ st.order
    · rw [if_pos h1] at heq
      cases heq
    · rw [if_neg h1] at heq
      have hpre2 : stack_pre rk pkg st := by
        rcases hpre with hc | hc
        · exact absurd (Or.inl hc) h1
        · exact hc
      have hpo : pkg ∉ st.order := fun hc => h1 (Or.inr hc)
      by_cases h2 : pkg ∈ st.visited
      · exact absurd (hpre2 pkg h2 hpo) (lt_irrefl _)
      · rw [if_neg h2] at heq
        cases hinfo : get_aur_info env pkg with
        | none =>
          rw [hinfo] at heq
          dsimp only at heq
          exact ResolveError.noConfusion (Except.error.inj heq)
        | some info =>
          rw [hinfo] at heq
          dsimp only at heq
          have hkeys : pkg ∈ registry_keys env := registry_find_mem env.registry pkg info hinfo
          cases hdeps : visit_deps (fun d s => visit env fuel d s) env (strip_deps info)
              (ResolveState.mk st.order (pkg :: st.visited)) with
          | error e =>
            rw [hdeps] at heq
            dsimp only at heq
            refine visit_deps_no_circ env (fun d s => visit env fuel d s) rk m
              (fun d s hd2 => ih d s m hd2)
              (fun d s s2 hok => (visit_inv env fuel d s s2 hok).1)
              (strip_deps info) (ResolveState.mk st.order (pkg :: st.visited)) ?_
              (hdeps.trans heq)
            intro d hd hdrf
            by_cases hdl : env.localdb d = true
            · exact Or.inl hdl
            · have hdlf : env.localdb d = false := by
                cases hb : env.localdb d with
                | false => rfl
                | true => exact absurd hb hdl
              have hrank : rk d < rk pkg := by
                refine hrk pkg hkeys d ?_ hdrf hdlf
                simp only [deps_of_key, hinfo]
                exact hd
              right
              intro x hx hno
              rcases List.mem_cons.mp hx with he | ht
              · rw [he]
                exact hrank
              · have hnost : x ∉ st.order := hno
                exact lt_trans hrank (hpre2 x ht hnost)
          | ok st3 =>
            rw [hdeps] at heq
            dsimp only at heq
            cases heq

theorem visit_all_inv (env : ResolveEnv) (fuel : Nat) :
    ∀ req st st2, visit_all env fuel req st = Except.ok st2 →
      inv_step env st st2 ∧ ∀ r ∈ req, env.localdb r = true ∨ r ∈ st2.order := by
  intro req
  induction req with
  | nil =>
    intro st st2 h
    simp only [visit_all] at h
    cases h
    exact ⟨inv_step_refl env st, fun r hr => absurd hr (List.not_mem_nil r)⟩
  | cons r req ih =>
    intro st st2 h
    simp only [visit_all] at h
    cases hv : visit env fuel r st with
    | error e =>
      rw [hv] at h
      cases h
    | ok st3 =>
      rw [hv] at h
      dsimp only at h
      rcases visit_inv env fuel r st st3 hv with ⟨hinv1, hr⟩
      rcases ih st3 st2 h with ⟨hinv2, hall⟩
      refine ⟨inv_step_trans hinv1 hinv2, ?_⟩
      intro r2 hr2
      rcases List.mem_cons.mp hr2 with he | ht
      · subst he
        rcases hr with hc | hc
        · exact Or.inl hc
        · exact Or.inr (order_sub_of_inv_step hinv2 r2 hc)
      · exact hall r2 ht

theorem good_state_empty (env : ResolveEnv) : good_state env (ResolveState.mk [] []) := by
  refine ⟨List.nodup_nil, ?_, ?_⟩
  · intro m hm
    cases hm
  · intro m hm
    cases hm

theorem visit_all_ok (env : ResolveEnv) (rk : String → Nat)
    (hc2 : ∀ n ∈ registry_keys env, ∀ d ∈ deps_of_key env n,
      env.in_repos d = true ∨ env.localdb d = true ∨ d ∈ registry_keys env)
    (hrk : rank_ok env rk) :
    ∀ req st, (∀ r ∈ req, env.localdb r = true ∨ r ∈ registry_keys env) →
      good_state env st → (∀ x ∈ st.visited, x ∈ st.order) →
      ∃ st2, visit_all env (env.registry.length + 1) req st = Except.ok st2 ∧
        good_state env st2 ∧ (∀ x ∈ st2.visited, x ∈ st2.order) ∧
        (∀ r ∈ req, env.localdb r = true ∨ r ∈ st2.order) := by
  intro req
  induction req with
  | nil =>
    intro st _ hg hstk
    exact ⟨st, rfl, hg, hstk, fun r hr => absurd hr (List.not_mem_nil r)⟩
  | cons r req ih =>
    intro st hreq hg hstk
    have hkr : keys_remaining env st < env.registry.length + 1 := by
      have h1 : keys_remaining env st ≤ (registry_keys env).length :=
        List.countP_le_length _
      have h2 : (registry_keys env).length = env.registry.length := by
        simp [registry_keys]
      omega
    cases hv : visit env (env.registry.length + 1) r st with
    | error e =>
      exfalso
      cases e with
      | circularDependency m =>
        refine visit_no_circ env rk hrk (env.registry.length + 1) r st m ?_ hv
        right
        intro x hx hno
        exact absurd (hstk x hx) hno
      | unresolvable m =>
        exact visit_no_unres env hc2 (env.registry.length + 1) r st m
          (hreq r (List.mem_cons_self _ _)) hv
      | outOfFuel =>
        exact visit_ne_fuel env (env.registry.length + 1) st r hkr hv
    | ok st3 =>
      rcases visit_inv env (env.registry.length + 1) r st st3 hv with ⟨hinv, hr⟩
      have hg3 : good_state env st3 := hinv.2.2.2.2 hg
      have hstk3 : ∀ x ∈ st3.visited, x ∈ st3.order := by
        intro x hx
        by_contra hno
        have hx1 : x ∈ st.visited := hinv.2.2.1 x hx hno
        exact hno (order_sub_of_inv_step hinv x (hstk x hx1))
      rcases ih st3 (fun r2 hr2 => hreq r2 (List.mem_cons_of_mem _ hr2)) hg3 hstk3
        with ⟨st2, hrun, hg2, hstk2, hall⟩
      refine ⟨st2, ?_, hg2, hstk2, ?_⟩
      · simp only [visit_all]
        rw [hv]
        exact hrun
      · intro r2 hr2
        rcases List.mem_cons.mp hr2 with he | ht
        · subst he
          rcases hr with hc | hc
          · exact Or.inl hc
          · rcases visit_all_inv env (env.registry.length + 1) req st3 st2 hrun with ⟨hinv2, _⟩
            exact Or.inr (order_sub_of_inv_step hinv2 r2 hc)
        · exact hall r2 ht

theorem resolve_ok_of_closed_ranked (env : ResolveEnv) (names : List String)
    (rk : String → Nat) (hc : resolve_closed env names) (hrk : rank_ok env rk) :
    ∃ l, resolve_aur_dependencies env names = Except.ok l ∧ l.Nodup ∧
      (∀ m ∈ l, env.localdb m = false) ∧
      (∀ m ∈ l, ∀ d, dep_edge env m d → d ∈ l ∧ l.indexOf d < l.indexOf m) ∧
      (∀ r ∈ names, env.localdb r = true ∨ r ∈ l) := by
  rcases visit_all_ok env rk hc.2 hrk names (ResolveState.mk [] []) hc.1
    (good_state_empty env) (by intro x hx; cases hx) with ⟨st2, hrun, hg, _, hall⟩
  refine ⟨st2.order, ?_, hg.1, hg.2.1, hg.2.2, hall⟩
  simp only [resolve_aur_dependencies]
  rw [hrun]

/-- C3: for every closed dependency graph (each requested name and each
reachable dependency is locally installed, in the sync repositories, or in
the registry) that is acyclic on the unsatisfied packages — witnessed by a
rank strictly decreasing along unsatisfied dependency edges — the resolver
terminates with an ordered list in which every unsatisfied dependency of a
listed package appears, strictly before that package; no name appears
twice; and no locally installed name appears. -/
theorem resolve_topological_order (env : ResolveEnv) (names : List String)
    (rk : String → Nat) (hclosed : resolve_closed env names) (hrank : rank_ok env rk) :
    ∃ l, resolve_aur_dependencies env names = Except.ok l ∧ l.Nodup ∧
      (∀ m ∈ l, env.localdb m = false) ∧
      (∀ m ∈ l, ∀ d, dep_edge env m d → d ∈ l ∧ l.indexOf d < l.indexOf m) := by
  rcases resolve_ok_of_closed_ranked env names rk hclosed hrank with ⟨l, h1, h2, h3, h4, _⟩
  exact ⟨l, h1, h2, h3, h4⟩

/-- A two-package registry X depending on Y, nothing satisfied locally. -/
def env_xy : ResolveEnv :=
  ResolveEnv.mk [(("X"), AurInfo.mk [("Y")] []), (("Y"), AurInfo.mk [] [])]
    (fun _ => false) (fun _ => false)

/-- A rank for env_xy: X above Y. -/
def rk_xy : String → Nat := fun n => if n = ("X") then 1 else 0

/-- Witness for C3 at the concrete graph X depends on Y: the hypotheses
hold and the resolver returns an order with the stated properties
(concretely [Y, X]). -/
theorem resolve_topological_order_witness :
    resolve_closed env_xy [("X")] ∧ rank_ok env_xy rk_xy ∧
    (∃ l, resolve_aur_dependencies env_xy [("X")] = Except.ok l ∧ l.Nodup ∧
      (∀ m ∈ l, env_xy.localdb m = false) ∧
      (∀ m ∈ l, ∀ d, dep_edge env_xy m d → d ∈ l ∧ l.indexOf d < l.indexOf m)) := by
  refine ⟨?_, ?_, ?_⟩
  · unfold resolve_closed
    decide
  · unfold rank_ok
    decide
  · exact resolve_topological_order env_xy [("X")] rk_xy
      (by unfold resolve_closed; decide) (by unfold rank_ok; decide)

theorem good_reach (env : ResolveEnv) (l : List String)
    (hg : ∀ m ∈ l, ∀ d, dep_edge env m d → d ∈ l ∧ l.indexOf d < l.indexOf m) :
    ∀ r c, Relation.ReflTransGen (dep_edge env) r c → r ∈ l →
      c ∈ l ∧ l.indexOf c ≤ l.indexOf r := by
  intro r c hrc
  induction hrc with
  | refl =>
    intro hr
    exact ⟨hr, le_refl _⟩
  | tail hab hbc ih =>
    intro hr
    rcases ih hr with ⟨hb, hle⟩
    rcases hg _ hb _ hbc with ⟨hc2, hlt⟩
    exact ⟨hc2, le_trans (le_of_lt hlt) hle⟩

theorem good_trans_lt (env : ResolveEnv) (l : List String)
    (hg : ∀ m ∈ l, ∀ d, dep_edge env m d → d ∈ l ∧ l.indexOf d < l.indexOf m) :
    ∀ a b, Relation.TransGen (dep_edge env) a b → a ∈ l →
      b ∈ l ∧ l.indexOf b < l.indexOf a := by
  intro a b hab
  induction hab with
  | single h =>
    intro ha
    exact hg _ ha _ h
  | tail hab h ih =>
    intro ha
    rcases ih ha with ⟨hb, hlt⟩
    rcases hg _ hb _ h with ⟨hc, hlt2⟩
    exact ⟨hc, lt_trans hlt2 hlt⟩

theorem visit_all_err_circ (env : ResolveEnv)
    (hc2 : ∀ n ∈ registry_keys env, ∀ d ∈ deps_of_key env n,
      env.in_repos d = true ∨ env.localdb d = true ∨ d ∈ registry_keys env) :
    ∀ req st e, (∀ r ∈ req, env.localdb r = true ∨ r ∈ registry_keys env) →
      visit_all env (env.registry.length + 1) req st = Except.error e →
      ∃ m, e = ResolveError.circularDependency m := by
  intro req
  induction req with
  | nil =>
    intro st e _ h
    simp only [visit_all] at h
    cases h
  | cons r req ih =>
    intro st e hreq h
    simp only [visit_all] at h
    have hkr : keys_remaining env st < env.registry.length + 1 := by
      have h1 : keys_remaining env st ≤ (registry_keys env).length :=
        List.countP_le_length _
      have h2 : (registry_keys env).length = env.registry.length := by
        simp [registry_keys]
      omega
    cases hv : visit env (env.registry.length + 1) r st with
    | error e2 =>
      rw [hv] at h
      dsimp only at h
      have he2 : e2 = e := Except.error.inj h
      subst he2
      cases e2 with
      | circularDependency m => exact ⟨m, rfl⟩
      | unresolvable m =>
        exact absurd hv (visit_no_unres env hc2 (env.registry.length + 1) r st m
          (hreq r (List.mem_cons_self _ _)))
      | outOfFuel =>
        exact absurd hv (visit_ne_fuel env (env.registry.length + 1) st r hkr)
    | ok st3 =>
      rw [hv] at h
      dsimp only at h
      exact ih st3 e (fun r2 hr2 => hreq r2 (List.mem_cons_of_mem _ hr2)) h

/-- C4: for every closed dependency graph in which some requested,
unsatisfied name reaches a dependency cycle among unsatisfied packages,
resolution fails with the circular-dependency error — the Except result
carries no partial order list; and a graph whose only cycles pass through
locally installed packages (so that a rank exists on the unsatisfied
edges) resolves normally even though a dependency cycle exists. -/
theorem cycle_detection (env : ResolveEnv) (names : List String) (r c : String)
    (env2 : ResolveEnv) (names2 : List String) (rk2 : String → Nat)
    (hclosed : resolve_closed env names) (hr : r ∈ names) (hrl : env.localdb r = false)
    (hreach : Relation.ReflTransGen (dep_edge env) r c)
    (hcyc : Relation.TransGen (dep_edge env) c c)
    (hclosed2 : resolve_closed env2 names2) (hrk2 : rank_ok env2 rk2)
    (_hcyc2 : ∃ a, Relation.TransGen (dep_edge_any env2) a a) :
    (∃ m, resolve_aur_dependencies env names
        = Except.error (ResolveError.circularDependency m))
    ∧ (∃ l, resolve_aur_dependencies env2 names2 = Except.ok l) := by
  constructor
  · simp only [resolve_aur_dependencies]
    cases hres : visit_all env (env.registry.length + 1) names (ResolveState.mk [] []) with
    | ok st =>
      exfalso
      rcases visit_all_inv env (env.registry.length + 1) names _ st hres with ⟨hinv, hreq⟩
      have hgood : good_state env st := hinv.2.2.2.2 (good_state_empty env)
      have hrin : r ∈ st.order := by
        rcases hreq r hr with hc | hc
        · rw [hrl] at hc
          exact absurd hc Bool.false_ne_true
        · exact hc
      rcases good_reach env st.order hgood.2.2 r c hreach hrin with ⟨hcin, _⟩
      rcases good_trans_lt env st.order hgood.2.2 c c hcyc hcin with ⟨_, hlt⟩
      exact lt_irrefl _ hlt
    | error e =>
      rcases visit_all_err_circ env hclosed.2 names _ e hclosed.1 hres with ⟨m, he⟩
      subst he
      exact ⟨m, rfl⟩
  · rcases resolve_ok_of_closed_ranked env2 names2 rk2 hclosed2 hrk2 with ⟨l, h1, _⟩
    exact ⟨l, h1⟩

/-- A two-package registry with the cycle A depends on B depends on A,
nothing satisfied locally. -/
def env_ab : ResolveEnv :=
  ResolveEnv.mk [(("A"), AurInfo.mk [("B")] []), (("B"), AurInfo.mk [("A")] [])]
    (fun _ => false) (fun _ => false)

/-- A registry with the cycle C depends on D depends on C where D is
locally installed, so the cycle passes only through a satisfied package. -/
def env_cd : ResolveEnv :=
  ResolveEnv.mk [(("C"), AurInfo.mk [("D")] []), (("D"), AurInfo.mk [("C")] [])]
    (fun n => decide (n = ("D"))) (fun _ => false)

/-- A rank for env_cd on its unsatisfied edges: D above C. -/
def rk_cd : String → Nat := fun n => if n = ("D") then 1 else 0

/-- Witness for C4 at concrete graphs: requesting A in the cyclic graph
A-B-A fails with the circular-dependency error, while requesting C in the
graph whose cycle C-D-C passes through the locally installed D resolves
normally. -/
theorem cycle_detection_witness :
    resolve_closed env_ab [("A")] ∧ env_ab.localdb ("A") = false ∧
    resolve_closed env_cd [("C")] ∧ rank_ok env_cd rk_cd ∧
    (∃ m, resolve_aur_dependencies env_ab [("A")]
        = Except.error (ResolveError.circularDependency m)) ∧
    (∃ l, resolve_aur_dependencies env_cd [("C")] = Except.ok l) := by
  have edge_ab : dep_edge env_ab ("A") ("B") :=
    ⟨⟨AurInfo.mk [("B")] [], by decide, by decide⟩, rfl, rfl⟩
  have edge_ba : dep_edge env_ab ("B") ("A") :=
    ⟨⟨AurInfo.mk [("A")] [], by decide, by decide⟩, rfl, rfl⟩
  have any_cd : dep_edge_any env_cd ("C") ("D") :=
    ⟨AurInfo.mk [("D")] [], by decide, by decide⟩
  have any_dc : dep_edge_any env_cd ("D") ("C") :=
    ⟨AurInfo.mk [("C")] [], by decide, by decide⟩
  have main := cycle_detection env_ab [("A")] ("A") ("A") env_cd [("C")] rk_cd
    (by unfold resolve_closed; decide) (by decide) rfl
    Relation.ReflTransGen.refl
    (Relation.TransGen.head edge_ab (Relation.TransGen.single edge_ba))
    (by unfold resolve_closed; decide) (by unfold rank_ok; decide)
    ⟨("C"), Relation.TransGen.head any_cd (Relation.TransGen.single any_dc)⟩
  exact ⟨by unfold resolve_closed; decide, rfl,
    by unfold resolve_closed; decide, by unfold rank_ok; decide, main.1, main.2⟩
